import Mathlib

/-!
Verification of the r2 replication core (graph.rs, replicate.rs).

The Rust sources are shallowly embedded below.  Machine integers
(`usize`) are modelled as `Nat`; fallible operations (panics: index out
of bounds, `gen_range` with an empty range, `assert!`) are modelled with
`Option`.  The ChaCha random stream seeded from `(seed, node)` in
`bucketsample_parents` is modelled as a function `rng : Nat → Nat → Nat`
(node index, then draw index within that node); it is a deterministic
function of the seed in the source, so both it and the Feistel inverse
permutation `fInv` (from the external `storage_proofs::crypto::feistel`
crate, a permutation of `[0, nodes·expansion_degree)`) are passed as
explicit parameters.  `rng.gen_range(lo, hi)` is modelled as
`lo + draw % (hi - lo)`, which ranges over exactly the interval the
source draws from.  `(node*m as f32).log2().floor()` is modelled as
`log2f (node*m)`, a fuel-based floor of the base-2 logarithm.
-/

namespace R2

/-- Modulus of the BLS12-381 scalar field `Fr` used by `replicate.rs`
(via `paired::bls12_381::Fr`). -/
def blsR : Nat := 52435875175126190479447740508185965837690552500527637822603658699938581184513

instance : NeZero blsR := ⟨by decide⟩

instance : Fact (1 < blsR) := ⟨by decide⟩

/-- The field of node values and keys. -/
abbrev Fr := ZMod blsR

/-- Total list indexing, `l[i]` with an explicit default (Rust indexing
panics out of range; every theorem below only indexes in range). -/
def nth {α : Type} (l : List α) (i : Nat) (d : α) : α :=
  match l, i with
  | [], _ => d
  | x :: _, 0 => x
  | _ :: xs, n + 1 => nth xs n d

/-- Sequence a list of fallible computations (used for the per-node
generation loop, whose body can panic). -/
def mapOpt {α β : Type} (f : α → Option β) : List α → Option (List β)
  | [] => some []
  | x :: xs =>
    match f x, mapOpt f xs with
    | some y, some ys => some (y :: ys)
    | _, _ => none

/-- In-place update of one entry of a vector of vectors
(`self.exp_reversed[n2].push(n1)`): apply `f` at index `n`.  Out of
range it is the identity; the generation code only ever hits in-range
indices (proved below). -/
def modifyAt {α : Type} (f : α → α) : Nat → List α → List α
  | _, [] => []
  | 0, x :: xs => f x :: xs
  | n + 1, x :: xs => x :: modifyAt f n xs

/-- `struct Graph` from graph.rs. -/
structure Graph where
  nodes : Nat
  base_degree : Nat
  expansion_degree : Nat
  seed : List Nat
  bas : List (List Nat)
  exp : List (List Nat)
  exp_reversed : List (List Nat)
deriving DecidableEq

/-- `Graph::new`. -/
def Graph.new (nodes base_degree expansion_degree : Nat) (seed : List Nat) : Graph :=
  { nodes := nodes
    base_degree := base_degree
    expansion_degree := expansion_degree
    seed := seed
    bas := List.replicate nodes []
    exp := List.replicate nodes []
    exp_reversed := List.replicate nodes [] }

/-- `Graph::degree`. -/
def Graph.degree (g : Graph) : Nat := g.base_degree + g.expansion_degree

/-- Floor of the base-2 logarithm, by repeated halving with explicit
fuel (`n` halvings always suffice), so that it evaluates by kernel
reduction.  `log2fuel` is the worker. -/
def log2fuel : Nat → Nat → Nat
  | 0, _ => 0
  | fuel + 1, n => if 2 ≤ n then log2fuel fuel (n / 2) + 1 else 0

/-- `floor(log2 n)`: the embedding of `(x as f32).log2().floor()`. -/
def log2f (n : Nat) : Nat := log2fuel n n

/-- One iteration of the bucket-sampling loop body of
`bucketsample_parents` (graph.rs lines 45-62) for meta-node `k` of
`node`, consuming draws `2k` and `2k+1` of the node's random stream.
`none` models the panics: `% logi` with `logi = 0`, `gen_range` on an
empty range, and the `assert!(out <= node)`. -/
def bucketStep (g : Graph) (rng : Nat → Nat) (node k : Nat) : Option Nat :=
  let m := g.base_degree
  let logi := log2f (node * m)
  if logi = 0 then none
  else
    let j := rng (2 * k) % logi
    let jj := min (node * m + k) (2 ^ (j + 1))
    let lo := max (jj / 2) 2
    if jj + 1 ≤ lo then none
    else
      let back_dist := lo + rng (2 * k + 1) % (jj + 1 - lo)
      let out := (node * m + k - back_dist) / m
      if out = node then some (node - 1)
      else if out ≤ node then some out
      else none

/-- `bucketsample_parents` (graph.rs lines 24-71).  The result array is
`[0; 5]`; nodes 0 and 1 leave it all zero; otherwise the first `m`
slots are generated then sorted (`parents[0..m].sort_unstable()`, which
panics when `m > 5`), the rest stay zero. -/
def bucketsample_parents (g : Graph) (rng : Nat → Nat) (node : Nat) : Option (List Nat) :=
  let m := g.base_degree
  if node ≤ 1 then some (List.replicate 5 0)
  else if 5 < m then none
  else
    match mapOpt (fun k => bucketStep g rng node k) (List.range m) with
    | none => none
    | some drawn =>
      some (List.insertionSort (fun a b => a ≤ b) drawn ++ List.replicate (5 - m) 0)

/-- `expander_parents` (graph.rs lines 75-102).  `fInv` stands for
`feistel::invert_permute((nodes*expansion_degree), ·, keys, fp)`. -/
def expander_parents (g : Graph) (fInv : Nat → Nat) (node : Nat) : List Nat :=
  (List.range g.expansion_degree).filterMap fun i =>
    let parent := fInv (node * g.expansion_degree + i) / g.expansion_degree
    if parent < node then some parent else none

/-- Inner loop of the reverse-edge pass: push `n1` onto
`exp_reversed[n2]` for every `n2` in the row `exp[n1]`. -/
def revPush (n1 : Nat) (acc : List (List Nat)) (row : List Nat) : List (List Nat) :=
  row.foldl (fun a n2 => modifyAt (fun l => l ++ [n1]) n2 a) acc

/-- Outer loop of the reverse-edge pass over all rows of `exp`,
`i` being the index of the first row. -/
def revAll (i : Nat) (acc : List (List Nat)) : List (List Nat) → List (List Nat)
  | [] => acc
  | row :: rest => revAll (i + 1) (revPush i acc row) rest

/-- Specification of one column of the reverse-edge pass: the entries
pushed onto `exp_reversed[j]` while processing rows `i, i+1, ...` — one
copy of the row index per occurrence of `j` in that row, in row
order. -/
def revContrib (i : Nat) (rows : List (List Nat)) (j : Nat) : List Nat :=
  match rows with
  | [] => []
  | row :: rest => List.replicate (row.count j) i ++ revContrib (i + 1) rest j

/-- Number of occurrences of `j` across all rows. -/
def revLen (rows : List (List Nat)) (j : Nat) : Nat :=
  (rows.map fun row => row.count j).sum

/-- Total number of entries of a vector of vectors (total edge count of
an adjacency table). -/
def totalLen (ll : List (List Nat)) : Nat := (ll.map List.length).sum

/-- `Graph::gen_parents_cache` (graph.rs lines 184-201): fill `bas` and
`exp` for every node, then build `exp_reversed` in a second pass. -/
def Graph.gen (g : Graph) (rng : Nat → Nat → Nat) (fInv : Nat → Nat) : Option Graph :=
  match mapOpt (fun node => bucketsample_parents g (rng node) node) (List.range g.nodes) with
  | none => none
  | some basL =>
    let expL := (List.range g.nodes).map fun node => expander_parents g fInv node
    some { g with
            bas := basL
            exp := expL
            exp_reversed := revAll 0 g.exp_reversed expL }

/-- `pad_parents` (graph.rs lines 208-214). -/
def pad_parents (v : List Nat) (size : Nat) : List Nat :=
  if v.length < size then v ++ List.replicate (size - v.length) 0 else v

/-- The `base_parents` block of `Graph::parents` (graph.rs lines
149-162): forward `bas[node]` on even layers, the reflected
`bas[nodes-node-1]` on odd layers. -/
def base_parents_of (g : Graph) (node layer : Nat) : List Nat :=
  if layer % 2 = 0 then nth g.bas node []
  else (nth g.bas (g.nodes - node - 1) []).map fun x => g.nodes - x - 1

/-- The `exp_parents` block of `Graph::parents` (graph.rs lines
164-172). -/
def exp_parents_of (g : Graph) (node layer : Nat) : List Nat :=
  if layer % 2 = 0 then nth g.exp node [] else nth g.exp_reversed node []

/-- The padded DRG half of the parent vector. -/
def drgHalf (g : Graph) (node layer : Nat) : List Nat :=
  pad_parents (base_parents_of g node layer) g.base_degree

/-- The padded expander half of the parent vector. -/
def expHalf (g : Graph) (node layer : Nat) : List Nat :=
  pad_parents (exp_parents_of g node layer) g.expansion_degree

/-- The vector `ps` built by `Graph::parents` before the
`assert_eq!(ps.len(), self.degree())`. -/
def Graph.parentsVec (g : Graph) (node layer : Nat) : List Nat :=
  drgHalf g node layer ++ expHalf g node layer

/-- `Graph::parents` (graph.rs lines 146-182): the produced vector,
with the `assert_eq!(ps.len(), self.degree())` modelled as the
some/none guard (`none` is the panic). -/
def Graph.parents (g : Graph) (node layer : Nat) : Option (List Nat) :=
  let ps := g.parentsVec node layer
  if ps.length = g.degree then some ps else none

/-- The field-addition encoding step of `replicate_layer`
(replicate.rs lines 83-94): `node_fr.add_assign(&key.into())`. -/
def encodeVal (v k : Fr) : Fr := v + k

/-- Modelled from the spec (§4.5, §6): the per-layer encoding pass of
`replicate_layer` / `replicate_layer_rev`.  The external `AsyncData`
node store (its crate-root definition is not part of src/) is a list of
field elements; the Blake2s digest primed with the replica id is
abstracted as `hash` applied to the list of parent values in parent
vector order, exactly the fold order of `create_key`.  Prefetch hints
are advisory no-ops and are omitted. -/
def replicate_layer (g : Graph) (hash : List Fr → Fr) (layer : Nat)
    (data : List Fr) : List Fr :=
  (List.range g.nodes).foldl
    (fun d node =>
      let ps := g.parentsVec node layer
      let key := hash (ps.map fun p => nth d p 0)
      d.set node (encodeVal (nth d node 0) key))
    data

/-- `r2` (replicate.rs lines 148-177): the only active pass is
`replicate_layer!(g, replica_id, 0, data)`; the other nine layer calls
are commented out in the source. -/
def r2 (g : Graph) (hash : List Fr → Fr) (data : List Fr) : List Fr :=
  replicate_layer g hash 0 data

/-- Modelled from the spec (§4.5.5, §9 open question): the intended
full schedule — one pass per layer of the configured total layer count
(10), each layer's output feeding the next, direction alternating with
layer parity. -/
def specTenLayerSchedule (g : Graph) (hash : List Fr → Fr) (data : List Fr) : List Fr :=
  (List.range 10).foldl (fun d layer => replicate_layer g hash layer d) data

/-- A fixed test seed (the seed only feeds the random stream, which is
a separate parameter here). -/
def seedL : List Nat := [1, 2, 3, 4, 5, 6, 7]

/-- All-zero random draws. -/
def rngZ : Nat → Nat → Nat := fun _ _ => 0

/-- The identity as a (trivially injective) Feistel permutation. -/
def fInvId : Nat → Nat := fun x => x

/-- A constant Feistel map (not injective) producing reverse edges. -/
def fInv0 : Nat → Nat := fun _ => 0

/-- Concrete generated graph: N = 4, m = 2, d = 1. -/
def gC : Graph :=
  ((Graph.new 4 2 1 seedL).gen rngZ fInvId).getD (Graph.new 4 2 1 seedL)

/-- Concrete generated graph with nonempty reverse edges:
N = 4, m = 2, d = 1, constant Feistel map. -/
def gD : Graph :=
  ((Graph.new 4 2 1 seedL).gen rngZ fInv0).getD (Graph.new 4 2 1 seedL)

/-- Concrete generated graph at the deployed base degree:
N = 4, m = 5, d = 1. -/
def gW : Graph :=
  ((Graph.new 4 5 1 seedL).gen rngZ fInvId).getD (Graph.new 4 5 1 seedL)

/-- Concrete one-node graph used to exhibit the single-layer behaviour
of `r2`. -/
def gOne : Graph :=
  ((Graph.new 1 5 0 seedL).gen rngZ fInvId).getD (Graph.new 1 5 0 seedL)

/-- A constant key digest. -/
def hOne : List Fr → Fr := fun _ => 1

/-- One-node data store. -/
def dOne : List Fr := [0]

theorem nth_default {α : Type} (l : List α) : ∀ (i : Nat) (d : α),
    l.length ≤ i → nth l i d = d := by
  induction l with
  | nil => intro i d _; cases i <;> rfl
  | cons x xs ih =>
    intro i d h
    cases i with
    | zero => simp at h
    | succ n => exact ih n d (by simpa using h)

theorem nth_eq_get {α : Type} (l : List α) : ∀ (i : Nat) (d : α) (h : i < l.length),
    nth l i d = l.get ⟨i, h⟩ := by
  induction l with
  | nil => intro i d h; simp at h
  | cons x xs ih =>
    intro i d h
    cases i with
    | zero => rfl
    | succ n => exact ih n d (by simpa using h)

theorem nth_range {n i : Nat} (h : i < n) (d : Nat) : nth (List.range n) i d = i := by
  rw [nth_eq_get _ _ _ (by simpa using h)]
  simp

theorem nth_replicate {α : Type} {n : Nat} (a d : α) : ∀ i, i < n →
    nth (List.replicate n a) i d = a := by
  induction n with
  | zero => intro i h; omega
  | succ k ih =>
    intro i h
    cases i with
    | zero => rfl
    | succ j => exact ih j (by omega)

theorem nth_append_right {α : Type} : ∀ (l l₂ : List α) (i : Nat) (d : α),
    l.length ≤ i → nth (l ++ l₂) i d = nth l₂ (i - l.length) d := by
  intro l
  induction l with
  | nil => intro l₂ i d _; rfl
  | cons x xs ih =>
    intro l₂ i d h
    cases i with
    | zero => simp at h
    | succ n => simpa using ih l₂ n d (by simpa using h)

theorem nth_append_left {α : Type} : ∀ (l l₂ : List α) (i : Nat) (d : α),
    i < l.length → nth (l ++ l₂) i d = nth l i d := by
  intro l
  induction l with
  | nil => intro l₂ i d h; simp at h
  | cons x xs ih =>
    intro l₂ i d h
    cases i with
    | zero => rfl
    | succ n => simpa using ih l₂ n d (by simpa using h)

theorem nth_map {α β : Type} (f : α → β) : ∀ (l : List α) (i : Nat) (d : β) (d' : α),
    i < l.length → nth (l.map f) i d = f (nth l i d') := by
  intro l
  induction l with
  | nil => intro i d d' h; simp at h
  | cons x xs ih =>
    intro i d d' h
    cases i with
    | zero => rfl
    | succ n => exact ih n d d' (by simpa using h)

theorem nth_mem {α : Type} : ∀ (l : List α) (i : Nat) (d : α),
    i < l.length → nth l i d ∈ l := by
  intro l
  induction l with
  | nil => intro i d h; simp at h
  | cons x xs ih =>
    intro i d h
    cases i with
    | zero => exact List.mem_cons_self x xs
    | succ n => exact List.mem_cons_of_mem x (ih n d (by simpa using h))

theorem mem_iff_nth {α : Type} (l : List α) (y : α) (d : α) :
    y ∈ l ↔ ∃ i, i < l.length ∧ nth l i d = y := by
  constructor
  · intro hy
    rcases List.mem_iff_get.mp hy with ⟨⟨i, hi⟩, hget⟩
    exact ⟨i, hi, by rw [nth_eq_get l i d hi]; exact hget⟩
  · rintro ⟨i, hi, rfl⟩
    exact nth_mem l i d hi

theorem mapOpt_length {α β : Type} (f : α → Option β) : ∀ (l : List α) (r : List β),
    mapOpt f l = some r → r.length = l.length := by
  intro l
  induction l with
  | nil => intro r h; simp [mapOpt] at h; simp [← h]
  | cons x xs ih =>
    intro r h
    simp only [mapOpt] at h
    cases hx : f x with
    | none => rw [hx] at h; simp at h
    | some y =>
      rw [hx] at h
      cases hxs : mapOpt f xs with
      | none => rw [hxs] at h; simp at h
      | some ys =>
        rw [hxs] at h
        simp only [Option.some.injEq] at h
        subst h
        simp [ih ys hxs]

theorem mapOpt_nth {α β : Type} (f : α → Option β) : ∀ (l : List α) (r : List β),
    mapOpt f l = some r → ∀ (i : Nat) (d₀ : α) (d₁ : β), i < l.length →
    f (nth l i d₀) = some (nth r i d₁) := by
  intro l
  induction l with
  | nil => intro r _ i d₀ d₁ h; simp at h
  | cons x xs ih =>
    intro r h i d₀ d₁ hi
    simp only [mapOpt] at h
    cases hx : f x with
    | none => rw [hx] at h; simp at h
    | some y =>
      rw [hx] at h
      cases hxs : mapOpt f xs with
      | none => rw [hxs] at h; simp at h
      | some ys =>
        rw [hxs] at h
        simp only [Option.some.injEq] at h
        subst h
        cases i with
        | zero => simpa [nth] using hx
        | succ n => exact ih ys hxs n d₀ d₁ (by simpa using hi)

theorem mapOpt_mem {α β : Type} (f : α → Option β) : ∀ (l : List α) (r : List β),
    mapOpt f l = some r → ∀ y ∈ r, ∃ x ∈ l, f x = some y := by
  intro l
  induction l with
  | nil =>
    intro r h y hy
    simp only [mapOpt, Option.some.injEq] at h
    subst h
    simp at hy
  | cons x xs ih =>
    intro r h y hy
    simp only [mapOpt] at h
    cases hx : f x with
    | none => rw [hx] at h; simp at h
    | some z =>
      rw [hx] at h
      cases hxs : mapOpt f xs with
      | none => rw [hxs] at h; simp at h
      | some ys =>
        rw [hxs] at h
        simp only [Option.some.injEq] at h
        subst h
        rcases List.mem_cons.mp hy with hyz | hyys
        · exact ⟨x, List.mem_cons_self x xs, by rw [hx, hyz]⟩
        · rcases ih ys hxs y hyys with ⟨x', hx', hfx'⟩
          exact ⟨x', List.mem_cons_of_mem x hx', hfx'⟩

theorem mapOpt_isSome {α β : Type} (f : α → Option β) : ∀ (l : List α),
    (∀ x ∈ l, (f x).isSome = true) → (mapOpt f l).isSome = true := by
  intro l
  induction l with
  | nil => intro _; rfl
  | cons x xs ih =>
    intro h
    have hx := h x (List.mem_cons_self x xs)
    have hxs := ih fun a ha => h a (List.mem_cons_of_mem x ha)
    simp only [mapOpt]
    cases hfx : f x with
    | none => rw [hfx] at hx; simp at hx
    | some y =>
      cases hrest : mapOpt f xs with
      | none => rw [hrest] at hxs; simp at hxs
      | some ys => rfl

theorem length_modifyAt {α : Type} (f : α → α) : ∀ (n : Nat) (l : List α),
    (modifyAt f n l).length = l.length := by
  intro n l
  induction l generalizing n with
  | nil => cases n <;> rfl
  | cons x xs ih => cases n with
    | zero => rfl
    | succ k => simpa [modifyAt] using ih k

theorem nth_modifyAt_ne {α : Type} (f : α → α) : ∀ (n : Nat) (l : List α) (j : Nat) (d : α),
    j ≠ n → nth (modifyAt f n l) j d = nth l j d := by
  intro n l
  induction l generalizing n with
  | nil => intro j d _; cases n <;> rfl
  | cons x xs ih =>
    intro j d hj
    cases n with
    | zero =>
      cases j with
      | zero => exact absurd rfl hj
      | succ i => rfl
    | succ k =>
      cases j with
      | zero => rfl
      | succ i => exact ih k i d (by omega)

theorem nth_modifyAt_eq {α : Type} (f : α → α) : ∀ (n : Nat) (l : List α) (d : α),
    n < l.length → nth (modifyAt f n l) n d = f (nth l n d) := by
  intro n l
  induction l generalizing n with
  | nil => intro d h; simp at h
  | cons x xs ih =>
    intro d h
    cases n with
    | zero => rfl
    | succ k => exact ih k d (by simpa using h)

theorem length_pad_parents (v : List Nat) (s : Nat) :
    (pad_parents v s).length = max v.length s := by
  unfold pad_parents
  by_cases h : v.length < s
  · simp [h]; omega
  · simp [h]; omega

theorem pad_parents_of_le (v : List Nat) (s : Nat) (h : s ≤ v.length) :
    pad_parents v s = v := by
  unfold pad_parents
  simp [Nat.not_lt.mpr h]

theorem mem_pad_parents (v : List Nat) (s : Nat) (p : Nat) :
    p ∈ pad_parents v s → p ∈ v ∨ p = 0 := by
  unfold pad_parents
  by_cases h : v.length < s
  · simp only [h, if_true]
    intro hp
    rcases List.mem_append.mp hp with h1 | h2
    · exact Or.inl h1
    · exact Or.inr (List.eq_of_mem_replicate h2)
  · simp only [h, if_false]
    exact Or.inl

theorem log2f_ne_zero (n : Nat) (h : 2 ≤ n) : log2f n ≠ 0 := by
  unfold log2f
  cases n with
  | zero => omega
  | succ k =>
    show log2fuel (k + 1) (k + 1) ≠ 0
    unfold log2fuel
    rw [if_pos h]
    omega

theorem div_step_le (node m k back : Nat) (hm : 1 ≤ m) (hk : k < m)
    (hb : 2 ≤ back) : (node * m + k - back) / m ≤ node := by
  have h1 : node * m + k - back ≤ node * m + k - 2 := Nat.sub_le_sub_left hb _
  have h3 : node * m + k - 2 < (node + 1) * m := by
    have hnm : (node + 1) * m = node * m + m := by ring
    omega
  have h4 : node * m + k - back < (node + 1) * m := lt_of_le_of_lt h1 h3
  have h5 : (node * m + k - back) / m < node + 1 :=
    (Nat.div_lt_iff_lt_mul (by omega : 0 < m)).mpr h4
  omega

theorem bucketStep_lt (g : Graph) (rng : Nat → Nat) (node k p : Nat)
    (h1 : 1 ≤ node) (h : bucketStep g rng node k = some p) : p < node := by
  simp only [bucketStep] at h
  split at h
  · exact absurd h (by simp)
  · split at h
    · exact absurd h (by simp)
    · split at h
      · simp only [Option.some.injEq] at h
        omega
      · split at h
        · simp only [Option.some.injEq] at h
          rename_i hne hle
          omega
        · exact absurd h (by simp)

theorem bucketStep_isSome (g : Graph) (rng : Nat → Nat) (node k : Nat)
    (h2 : 2 ≤ node) (hk : k < g.base_degree) :
    (bucketStep g rng node k).isSome = true := by
  have hm : 1 ≤ g.base_degree := by omega
  have hnm : 2 ≤ node * g.base_degree := by
    calc 2 = 2 * 1 := rfl
    _ ≤ node * g.base_degree := Nat.mul_le_mul h2 hm
  simp only [bucketStep]
  split
  · rename_i hz
    exact absurd hz (log2f_ne_zero _ hnm)
  · split
    · rename_i hz hle
      have hjj : 2 ≤ min (node * g.base_degree + k)
          (2 ^ (rng (2 * k) % log2f (node * g.base_degree) + 1)) := by
        apply le_min (by omega)
        calc 2 = 2 ^ 1 := rfl
        _ ≤ 2 ^ (rng (2 * k) % log2f (node * g.base_degree) + 1) :=
          Nat.pow_le_pow_right (by omega) (by omega)
      have hmax : max (min (node * g.base_degree + k)
          (2 ^ (rng (2 * k) % log2f (node * g.base_degree) + 1)) / 2) 2 ≤
          min (node * g.base_degree + k)
          (2 ^ (rng (2 * k) % log2f (node * g.base_degree) + 1)) :=
        max_le (Nat.div_le_self _ _) hjj
      omega
    · split
      · rfl
      · split
        · rfl
        · rename_i hz hlt hne hout
          exact absurd (div_step_le node g.base_degree k _ hm hk (by
            have : 2 ≤ max (min (node * g.base_degree + k)
                (2 ^ (rng (2 * k) % log2f (node * g.base_degree) + 1)) / 2) 2 :=
              le_max_right _ _
            omega)) hout

theorem bucketsample_node01 (g : Graph) (rng : Nat → Nat) (node : Nat) (hn : node ≤ 1) :
    bucketsample_parents g rng node = some (List.replicate 5 0) := by
  unfold bucketsample_parents
  simp [hn]

theorem bucketsample_isSome (g : Graph) (rng : Nat → Nat) (node : Nat)
    (hm : g.base_degree ≤ 5) : (bucketsample_parents g rng node).isSome = true := by
  unfold bucketsample_parents
  by_cases hn : node ≤ 1
  · simp [hn]
  · rw [if_neg hn, if_neg (by omega : ¬ 5 < g.base_degree)]
    have hall : ∀ x ∈ List.range g.base_degree,
        (bucketStep g rng node x).isSome = true := by
      intro x hx
      exact bucketStep_isSome g rng node x (by omega) (List.mem_range.mp hx)
    have h := mapOpt_isSome (fun k => bucketStep g rng node k) (List.range g.base_degree) hall
    cases hmo : mapOpt (fun k => bucketStep g rng node k) (List.range g.base_degree) with
    | none => rw [hmo] at h; simp at h
    | some drawn => simp

theorem bucketsample_fails (g : Graph) (rng : Nat → Nat) (node : Nat)
    (hm : 5 < g.base_degree) (hn : 2 ≤ node) :
    bucketsample_parents g rng node = none := by
  unfold bucketsample_parents
  rw [if_neg (by omega : ¬ node ≤ 1), if_pos hm]

theorem bucketsample_length (g : Graph) (rng : Nat → Nat) (node : Nat) (v : List Nat)
    (h : bucketsample_parents g rng node = some v) : v.length = 5 := by
  unfold bucketsample_parents at h
  by_cases hn : node ≤ 1
  · rw [if_pos hn] at h
    simp only [Option.some.injEq] at h
    simp [← h]
  · rw [if_neg hn] at h
    by_cases hm : 5 < g.base_degree
    · rw [if_pos hm] at h; exact absurd h (by simp)
    · rw [if_neg hm] at h
      cases hmo : mapOpt (fun k => bucketStep g rng node k) (List.range g.base_degree) with
      | none => rw [hmo] at h; exact absurd h (by simp)
      | some drawn =>
        rw [hmo] at h
        simp only [Option.some.injEq] at h
        have hd : drawn.length = g.base_degree := by
          have := mapOpt_length _ _ _ hmo
          simpa using this
        rw [← h]
        simp only [List.length_append, List.length_insertionSort, List.length_replicate]
        omega

theorem bucketsample_mem (g : Graph) (rng : Nat → Nat) (node : Nat) (v : List Nat)
    (h : bucketsample_parents g rng node = some v) (p : Nat) (hp : p ∈ v) :
    p = 0 ∨ (2 ≤ node ∧ p < node) := by
  unfold bucketsample_parents at h
  by_cases hn : node ≤ 1
  · rw [if_pos hn] at h
    simp only [Option.some.injEq] at h
    subst h
    exact Or.inl (List.eq_of_mem_replicate hp)
  · rw [if_neg hn] at h
    by_cases hm : 5 < g.base_degree
    · rw [if_pos hm] at h; exact absurd h (by simp)
    · rw [if_neg hm] at h
      cases hmo : mapOpt (fun k => bucketStep g rng node k) (List.range g.base_degree) with
      | none => rw [hmo] at h; exact absurd h (by simp)
      | some drawn =>
        rw [hmo] at h
        simp only [Option.some.injEq] at h
        subst h
        rcases List.mem_append.mp hp with hs | hr
        · have hpd : p ∈ drawn :=
            (List.perm_insertionSort (fun a b => a ≤ b) drawn).mem_iff.mp hs
          rcases mapOpt_mem _ _ _ hmo p hpd with ⟨x, _, hfx⟩
          exact Or.inr ⟨by omega, bucketStep_lt g rng node x p (by omega) hfx⟩
        · exact Or.inl (List.eq_of_mem_replicate hr)

theorem bucketsample_pad (g : Graph) (rng : Nat → Nat) (node : Nat) (v : List Nat)
    (h : bucketsample_parents g rng node = some v) (t : Nat)
    (ht : g.base_degree ≤ t) (ht5 : t < 5) : nth v t 1 = 0 := by
  unfold bucketsample_parents at h
  by_cases hn : node ≤ 1
  · rw [if_pos hn] at h
    simp only [Option.some.injEq] at h
    subst h
    exact nth_replicate 0 1 t ht5
  · rw [if_neg hn] at h
    by_cases hm : 5 < g.base_degree
    · rw [if_pos hm] at h; exact absurd h (by simp)
    · rw [if_neg hm] at h
      cases hmo : mapOpt (fun k => bucketStep g rng node k) (List.range g.base_degree) with
      | none => rw [hmo] at h; exact absurd h (by simp)
      | some drawn =>
        rw [hmo] at h
        simp only [Option.some.injEq] at h
        subst h
        have hd : (List.insertionSort (fun a b => a ≤ b) drawn).length = g.base_degree := by
          rw [List.length_insertionSort]
          have := mapOpt_length _ _ _ hmo
          simpa using this
        rw [nth_append_right _ _ _ _ (by omega)]
        exact nth_replicate 0 1 _ (by omega)

theorem expander_mem (g : Graph) (fInv : Nat → Nat) (node p : Nat)
    (hp : p ∈ expander_parents g fInv node) : p < node := by
  unfold expander_parents at hp
  rcases List.mem_filterMap.mp hp with ⟨i, _, hfi⟩
  dsimp only at hfi
  split at hfi
  · rename_i hlt
    simp only [Option.some.injEq] at hfi
    omega
  · exact absurd hfi (by simp)

theorem expander_length_le (g : Graph) (fInv : Nat → Nat) (node : Nat) :
    (expander_parents g fInv node).length ≤ g.expansion_degree := by
  unfold expander_parents
  calc (List.filterMap _ (List.range g.expansion_degree)).length
      ≤ (List.range g.expansion_degree).length := List.length_filterMap_le _ _
  _ = g.expansion_degree := List.length_range _

theorem length_revPush (n1 : Nat) : ∀ (row : List Nat) (acc : List (List Nat)),
    (revPush n1 acc row).length = acc.length := by
  intro row
  induction row with
  | nil => intro acc; rfl
  | cons n2 rest ih =>
    intro acc
    show (revPush n1 (modifyAt (fun l => l ++ [n1]) n2 acc) rest).length = acc.length
    rw [ih, length_modifyAt]

theorem nth_revPush (n1 : Nat) : ∀ (row : List Nat) (acc : List (List Nat)) (j : Nat),
    j < acc.length →
    nth (revPush n1 acc row) j [] = nth acc j [] ++ List.replicate (row.count j) n1 := by
  intro row
  induction row with
  | nil => intro acc j _; simp [revPush]
  | cons n2 rest ih =>
    intro acc j hj
    have hstep : revPush n1 acc (n2 :: rest) =
        revPush n1 (modifyAt (fun l => l ++ [n1]) n2 acc) rest := rfl
    rw [hstep, ih _ j (by rw [length_modifyAt]; exact hj)]
    by_cases hje : j = n2
    · subst hje
      rw [nth_modifyAt_eq _ _ _ _ hj, List.count_cons]
      simp only [beq_self_eq_true, if_true, List.append_assoc, List.singleton_append,
        ← List.replicate_succ]
    · rw [nth_modifyAt_ne _ _ _ _ _ hje, List.count_cons]
      simp only [beq_iff_eq]
      rw [if_neg (by omega : ¬ n2 = j)]
      simp

theorem length_revAll : ∀ (rows : List (List Nat)) (i : Nat) (acc : List (List Nat)),
    (revAll i acc rows).length = acc.length := by
  intro rows
  induction rows with
  | nil => intro i acc; rfl
  | cons row rest ih =>
    intro i acc
    show (revAll (i + 1) (revPush i acc row) rest).length = acc.length
    rw [ih, length_revPush]

theorem nth_revAll : ∀ (rows : List (List Nat)) (i : Nat) (acc : List (List Nat)) (j : Nat),
    j < acc.length →
    nth (revAll i acc rows) j [] = nth acc j [] ++ revContrib i rows j := by
  intro rows
  induction rows with
  | nil => intro i acc j _; simp [revAll, revContrib]
  | cons row rest ih =>
    intro i acc j hj
    show nth (revAll (i + 1) (revPush i acc row) rest) j [] = _
    rw [ih (i + 1) _ j (by rw [length_revPush]; exact hj),
        nth_revPush _ _ _ _ hj, revContrib, List.append_assoc]

theorem count_revContrib : ∀ (rows : List (List Nat)) (i j x : Nat),
    (revContrib i rows j).count x =
    if i ≤ x ∧ x - i < rows.length then (nth rows (x - i) []).count j else 0 := by
  intro rows
  induction rows with
  | nil => intro i j x; simp [revContrib]
  | cons row rest ih =>
    intro i j x
    rw [revContrib, List.count_append, List.count_replicate, ih (i + 1) j x]
    simp only [beq_iff_eq, List.length_cons]
    by_cases hxi : x = i
    · subst hxi
      rw [if_pos rfl, if_neg (by omega), if_pos (by omega)]
      have e : x - x = 0 := by omega
      rw [e]
      simp [nth]
    · rw [if_neg (by omega : ¬ i = x)]
      by_cases hlt : i < x
      · have e1 : x - (i + 1) = x - i - 1 := by omega
        have e2 : x - i = (x - i - 1) + 1 := by omega
        by_cases hin : x - i - 1 < rest.length
        · rw [if_pos (by omega), if_pos (by omega), e1, e2]
          simp only [Nat.zero_add]
          rfl
        · rw [if_neg (by omega), if_neg (by omega)]
      · rw [if_neg (by omega), if_neg (by omega)]

theorem length_revContrib : ∀ (rows : List (List Nat)) (i j : Nat),
    (revContrib i rows j).length = revLen rows j := by
  intro rows
  induction rows with
  | nil => intro i j; rfl
  | cons row rest ih =>
    intro i j
    rw [revContrib, List.length_append, List.length_replicate, ih (i + 1) j]
    simp [revLen]

theorem totalLen_modifyAt (n1 : Nat) : ∀ (n : Nat) (l : List (List Nat)),
    totalLen (modifyAt (fun r => r ++ [n1]) n l) =
    totalLen l + if n < l.length then 1 else 0 := by
  intro n l
  induction l generalizing n with
  | nil => cases n <;> simp [modifyAt, totalLen]
  | cons x xs ih =>
    cases n with
    | zero => simp [modifyAt, totalLen]; omega
    | succ k =>
      have hk := ih k
      simp only [modifyAt, totalLen, List.map_cons, List.sum_cons] at hk ⊢
      rw [hk]
      simp only [List.length_cons, Nat.succ_lt_succ_iff]
      omega

theorem totalLen_revPush (n1 : Nat) : ∀ (row : List Nat) (acc : List (List Nat)),
    (∀ n2 ∈ row, n2 < acc.length) →
    totalLen (revPush n1 acc row) = totalLen acc + row.length := by
  intro row
  induction row with
  | nil => intro acc _; simp [revPush]
  | cons n2 rest ih =>
    intro acc hall
    have hstep : revPush n1 acc (n2 :: rest) =
        revPush n1 (modifyAt (fun l => l ++ [n1]) n2 acc) rest := rfl
    rw [hstep, ih _ (by
      intro a ha
      rw [length_modifyAt]
      exact hall a (List.mem_cons_of_mem n2 ha))]
    rw [totalLen_modifyAt, if_pos (hall n2 (List.mem_cons_self n2 rest))]
    simp
    omega

theorem totalLen_revAll : ∀ (rows : List (List Nat)) (i : Nat) (acc : List (List Nat)),
    (∀ row ∈ rows, ∀ n2 ∈ row, n2 < acc.length) →
    totalLen (revAll i acc rows) = totalLen acc + totalLen rows := by
  intro rows
  induction rows with
  | nil => intro i acc _; simp [revAll, totalLen]
  | cons row rest ih =>
    intro i acc hall
    show totalLen (revAll (i + 1) (revPush i acc row) rest) = _
    rw [ih (i + 1) _ (by
      intro r hr a ha
      rw [length_revPush]
      exact hall r (List.mem_cons_of_mem row hr) a ha)]
    rw [totalLen_revPush i row acc (hall row (List.mem_cons_self row rest))]
    simp only [totalLen, List.map_cons, List.sum_cons]
    omega

theorem totalLen_replicate_nil (n : Nat) :
    totalLen (List.replicate n ([] : List Nat)) = 0 := by
  induction n with
  | zero => rfl
  | succ k ih => simp [totalLen, List.replicate_succ] at ih ⊢

theorem new_nodes (N m d : Nat) (s : List Nat) : (Graph.new N m d s).nodes = N := rfl

theorem new_base (N m d : Nat) (s : List Nat) : (Graph.new N m d s).base_degree = m := rfl

theorem new_expansion (N m d : Nat) (s : List Nat) :
    (Graph.new N m d s).expansion_degree = d := rfl

theorem new_rev (N m d : Nat) (s : List Nat) :
    (Graph.new N m d s).exp_reversed = List.replicate N [] := rfl

theorem gen_spec (N m d : Nat) (s : List Nat) (rng : Nat → Nat → Nat) (fInv : Nat → Nat)
    (g' : Graph) (hg : (Graph.new N m d s).gen rng fInv = some g') :
    g'.nodes = N ∧ g'.base_degree = m ∧ g'.expansion_degree = d ∧
    g'.bas.length = N ∧
    g'.exp = (List.range N).map (fun node => expander_parents (Graph.new N m d s) fInv node) ∧
    g'.exp_reversed = revAll 0 (List.replicate N []) g'.exp ∧
    (∀ i, i < N →
      bucketsample_parents (Graph.new N m d s) (rng i) i = some (nth g'.bas i [])) := by
  unfold Graph.gen at hg
  rw [new_nodes] at hg
  cases hmo : mapOpt (fun node => bucketsample_parents (Graph.new N m d s) (rng node) node)
      (List.range N) with
  | none => rw [hmo] at hg; exact absurd hg (by simp)
  | some basL =>
    rw [hmo] at hg
    simp only [Option.some.injEq] at hg
    subst hg
    refine ⟨rfl, rfl, rfl, ?_, rfl, by rw [new_rev], ?_⟩
    · have := mapOpt_length _ _ _ hmo
      simpa using this
    · intro i hi
      have := mapOpt_nth _ _ _ hmo i 0 [] (by simpa using hi)
      rwa [nth_range hi] at this

theorem gen_exp_len (N : Nat) {m d : Nat} {s : List Nat} {rng : Nat → Nat → Nat}
    {fInv : Nat → Nat} {g' : Graph} (hg : (Graph.new N m d s).gen rng fInv = some g') :
    g'.exp.length = N := by
  obtain ⟨-, -, -, -, hexp, -, -⟩ := gen_spec N m d s rng fInv g' hg
  rw [hexp]
  simp

theorem gen_rev_len (N : Nat) {m d : Nat} {s : List Nat} {rng : Nat → Nat → Nat}
    {fInv : Nat → Nat} {g' : Graph} (hg : (Graph.new N m d s).gen rng fInv = some g') :
    g'.exp_reversed.length = N := by
  obtain ⟨-, -, -, -, -, hrev, -⟩ := gen_spec N m d s rng fInv g' hg
  rw [hrev, length_revAll]
  simp

theorem gen_exp_nth (N : Nat) {m d : Nat} {s : List Nat} {rng : Nat → Nat → Nat}
    {fInv : Nat → Nat} {g' : Graph} (hg : (Graph.new N m d s).gen rng fInv = some g')
    (i : Nat) (hi : i < N) :
    nth g'.exp i [] = expander_parents (Graph.new N m d s) fInv i := by
  obtain ⟨-, -, -, -, hexp, -, -⟩ := gen_spec N m d s rng fInv g' hg
  rw [hexp, nth_map _ _ _ _ 0 (by simpa using hi), nth_range hi]

theorem gen_rev_nth (N : Nat) {m d : Nat} {s : List Nat} {rng : Nat → Nat → Nat}
    {fInv : Nat → Nat} {g' : Graph} (hg : (Graph.new N m d s).gen rng fInv = some g')
    (j : Nat) (hj : j < N) :
    nth g'.exp_reversed j [] = revContrib 0 g'.exp j := by
  obtain ⟨-, -, -, -, -, hrev, -⟩ := gen_spec N m d s rng fInv g' hg
  rw [hrev, nth_revAll _ _ _ _ (by simpa using hj), nth_replicate _ _ _ hj,
    List.nil_append]

theorem gen_m_le_five (N m d : Nat) (s : List Nat) (rng : Nat → Nat → Nat)
    (fInv : Nat → Nat) (g' : Graph) (hg : (Graph.new N m d s).gen rng fInv = some g')
    (hN : 3 ≤ N) : m ≤ 5 := by
  by_contra hm
  obtain ⟨-, -, -, -, -, -, hbas⟩ := gen_spec N m d s rng fInv g' hg
  have h2 := hbas 2 (by omega)
  rw [bucketsample_fails _ _ 2 (by rw [new_base]; omega) (by omega)] at h2
  exact absurd h2 (by simp)

theorem gen_bas_mem (N m d : Nat) (s : List Nat) (rng : Nat → Nat → Nat)
    (fInv : Nat → Nat) (g' : Graph) (hg : (Graph.new N m d s).gen rng fInv = some g')
    (i p : Nat) (hi : i < N) (hp : p ∈ nth g'.bas i []) :
    p = 0 ∨ (2 ≤ i ∧ p < i) := by
  obtain ⟨-, -, -, -, -, -, hbas⟩ := gen_spec N m d s rng fInv g' hg
  exact bucketsample_mem _ _ _ _ (hbas i hi) p hp

theorem gen_bas_length (N m d : Nat) (s : List Nat) (rng : Nat → Nat → Nat)
    (fInv : Nat → Nat) (g' : Graph) (hg : (Graph.new N m d s).gen rng fInv = some g')
    (i : Nat) (hi : i < N) : (nth g'.bas i []).length = 5 := by
  obtain ⟨-, -, -, -, -, -, hbas⟩ := gen_spec N m d s rng fInv g' hg
  exact bucketsample_length _ _ _ _ (hbas i hi)

theorem gen_exp_mem (N m d : Nat) (s : List Nat) (rng : Nat → Nat → Nat)
    (fInv : Nat → Nat) (g' : Graph) (hg : (Graph.new N m d s).gen rng fInv = some g')
    (i p : Nat) (hi : i < N) (hp : p ∈ nth g'.exp i []) : p < i := by
  rw [gen_exp_nth N hg i hi] at hp
  exact expander_mem _ _ _ _ hp

theorem gen_exp_nth_len (N m d : Nat) (s : List Nat) (rng : Nat → Nat → Nat)
    (fInv : Nat → Nat) (g' : Graph) (hg : (Graph.new N m d s).gen rng fInv = some g')
    (i : Nat) (hi : i < N) : (nth g'.exp i []).length ≤ d := by
  rw [gen_exp_nth N hg i hi]
  have := expander_length_le (Graph.new N m d s) fInv i
  rwa [new_expansion] at this

theorem gen_rev_count (N m d : Nat) (s : List Nat) (rng : Nat → Nat → Nat)
    (fInv : Nat → Nat) (g' : Graph) (hg : (Graph.new N m d s).gen rng fInv = some g')
    (n1 n2 : Nat) (h1 : n1 < N) (h2 : n2 < N) :
    (nth g'.exp_reversed n2 []).count n1 = (nth g'.exp n1 []).count n2 := by
  rw [gen_rev_nth N hg n2 h2, count_revContrib]
  rw [if_pos ⟨Nat.zero_le n1, by rw [gen_exp_len N hg]; omega⟩]
  simp

theorem gen_rev_mem (N m d : Nat) (s : List Nat) (rng : Nat → Nat → Nat)
    (fInv : Nat → Nat) (g' : Graph) (hg : (Graph.new N m d s).gen rng fInv = some g')
    (j p : Nat) (hj : j < N) (hp : p ∈ nth g'.exp_reversed j []) : j < p ∧ p < N := by
  rw [gen_rev_nth N hg j hj] at hp
  have hc : 0 < (revContrib 0 g'.exp j).count p := List.count_pos_iff.mpr hp
  rw [count_revContrib] at hc
  by_cases hin : 0 ≤ p ∧ p - 0 < g'.exp.length
  · rw [if_pos hin] at hc
    have hpN : p < N := by
      have := hin.2
      rwa [gen_exp_len N hg, Nat.sub_zero] at this
    have hmem : j ∈ nth g'.exp (p - 0) [] := List.count_pos_iff.mp hc
    rw [Nat.sub_zero] at hmem
    exact ⟨gen_exp_mem N m d s rng fInv g' hg p j hpN hmem, hpN⟩
  · rw [if_neg hin] at hc
    omega

theorem gen_rev_total (N m d : Nat) (s : List Nat) (rng : Nat → Nat → Nat)
    (fInv : Nat → Nat) (g' : Graph) (hg : (Graph.new N m d s).gen rng fInv = some g') :
    totalLen g'.exp_reversed = totalLen g'.exp := by
  obtain ⟨-, -, -, -, hexp, hrev, -⟩ := gen_spec N m d s rng fInv g' hg
  rw [hrev, totalLen_revAll _ _ _ ?_, totalLen_replicate_nil, Nat.zero_add]
  intro row hrow a ha
  rw [List.length_replicate]
  rw [hexp] at hrow
  rcases List.mem_map.mp hrow with ⟨i, hi, hrowi⟩
  subst hrowi
  have := expander_mem _ _ _ _ ha
  have hiN := List.mem_range.mp hi
  omega

theorem count_filterMap_nat (f : Nat → Option Nat) : ∀ (l : List Nat) (y : Nat),
    (l.filterMap f).count y = (l.filter fun x => decide (f x = some y)).length := by
  intro l
  induction l with
  | nil => intro y; rfl
  | cons x xs ih =>
    intro y
    rw [List.filterMap_cons, List.filter_cons]
    cases hfx : f x with
    | none =>
      rw [ih y, if_neg (by simp [hfx])]
    | some z =>
      by_cases hzy : z = y
      · rw [if_pos (by simp [hfx, hzy]), List.count_cons, ih y]
        simp [hzy]
      · rw [if_neg (by simp [hfx, hzy]), List.count_cons, ih y]
        simp [hzy]

theorem expander_count_le (g : Graph) (fInv : Nat → Nat) (node j : Nat) :
    (expander_parents g fInv node).count j ≤
    ((List.range g.expansion_degree).filter fun i =>
      decide (fInv (node * g.expansion_degree + i) / g.expansion_degree = j)).length := by
  unfold expander_parents
  rw [count_filterMap_nat]
  apply List.Sublist.length_le
  apply List.monotone_filter_right
  intro a ha
  simp only [decide_eq_true_eq] at ha ⊢
  split at ha
  · simp only [Option.some.injEq] at ha
    omega
  · exact absurd ha (by simp)

theorem sum_count_filter (fInv : Nat → Nat) (d j : Nat) : ∀ N : Nat,
    ((List.range N).map fun node =>
      ((List.range d).filter fun i =>
        decide (fInv (node * d + i) / d = j)).length).sum =
    ((List.range (N * d)).filter fun x => decide (fInv x / d = j)).length := by
  intro N
  induction N with
  | zero => simp
  | succ K ih =>
    rw [List.range_succ, List.map_append, List.sum_append, ih]
    have hKd : (K + 1) * d = K * d + d := by ring
    rw [hKd, List.range_add, List.filter_append, List.length_append]
    congr 1
    rw [List.filter_map, List.length_map]
    simp only [List.map_cons, List.map_nil, List.sum_cons, List.sum_nil, Nat.add_zero]
    rfl

theorem filter_div_le (fInv : Nat → Nat) (hinj : Function.Injective fInv)
    (d j M : Nat) :
    ((List.range (M * d)).filter fun x => decide (fInv x / d = j)).length ≤ d := by
  by_cases hd : d = 0
  · subst hd
    simp
  · set L := (List.range (M * d)).filter fun x => decide (fInv x / d = j) with hL
    have hnd : L.Nodup := (List.nodup_range _).filter _
    have hmapnd : (L.map fInv).Nodup := hnd.map hinj
    have hsub : ∀ y ∈ (L.map fInv).toFinset, y ∈ Finset.Ico (j * d) (j * d + d) := by
      intro y hy
      rcases List.mem_map.mp (List.mem_toFinset.mp hy) with ⟨x, hx, hxy⟩
      subst hxy
      have hdiv : fInv x / d = j := by
        have := List.of_mem_filter hx
        simpa using this
      refine Finset.mem_Ico.mpr ⟨?_, ?_⟩
      · calc j * d = fInv x / d * d := by rw [hdiv]
        _ ≤ fInv x := Nat.div_mul_le_self _ _
      · have : fInv x / d < j + 1 := by omega
        have h2 : fInv x < (j + 1) * d :=
          (Nat.div_lt_iff_lt_mul (by omega : 0 < d)).mp this
        have h3 : (j + 1) * d = j * d + d := by ring
        omega
    calc L.length = (L.map fInv).length := (List.length_map _ _).symm
    _ = (L.map fInv).toFinset.card := (List.toFinset_card_of_nodup hmapnd).symm
    _ ≤ (Finset.Ico (j * d) (j * d + d)).card := Finset.card_le_card hsub
    _ = d := by rw [Nat.card_Ico]; omega

theorem gen_rev_nth_len_le (N m d : Nat) (s : List Nat) (rng : Nat → Nat → Nat)
    (fInv : Nat → Nat) (g' : Graph) (hg : (Graph.new N m d s).gen rng fInv = some g')
    (hinj : Function.Injective fInv) (j : Nat) (hj : j < N) :
    (nth g'.exp_reversed j []).length ≤ d := by
  rw [gen_rev_nth N hg j hj, length_revContrib]
  obtain ⟨-, -, -, -, hexp, -, -⟩ := gen_spec N m d s rng fInv g' hg
  rw [revLen, hexp, List.map_map]
  calc ((List.range N).map ((fun row => row.count j) ∘ fun node =>
        expander_parents (Graph.new N m d s) fInv node)).sum
      ≤ ((List.range N).map fun node =>
        ((List.range d).filter fun i =>
          decide (fInv (node * d + i) / d = j)).length).sum := by
        apply List.sum_le_sum
        intro i _
        exact expander_count_le (Graph.new N m d s) fInv i j
    _ = ((List.range (N * d)).filter fun x => decide (fInv x / d = j)).length :=
        sum_count_filter fInv d j N
    _ ≤ d := filter_div_le fInv hinj d j N

theorem drgHalf_even (g : Graph) (node layer : Nat) (h : layer % 2 = 0) :
    drgHalf g node layer = pad_parents (nth g.bas node []) g.base_degree := by
  unfold drgHalf base_parents_of
  rw [if_pos h]

theorem drgHalf_odd (g : Graph) (node layer : Nat) (h : layer % 2 = 1) :
    drgHalf g node layer =
    pad_parents ((nth g.bas (g.nodes - node - 1) []).map fun x => g.nodes - x - 1)
      g.base_degree := by
  unfold drgHalf base_parents_of
  rw [if_neg (by omega)]

theorem expHalf_even (g : Graph) (node layer : Nat) (h : layer % 2 = 0) :
    expHalf g node layer = pad_parents (nth g.exp node []) g.expansion_degree := by
  unfold expHalf exp_parents_of
  rw [if_pos h]

theorem expHalf_odd (g : Graph) (node layer : Nat) (h : layer % 2 = 1) :
    expHalf g node layer = pad_parents (nth g.exp_reversed node []) g.expansion_degree := by
  unfold expHalf exp_parents_of
  rw [if_neg (by omega)]

theorem gen_drgHalf_length (N m d : Nat) (s : List Nat) (rng : Nat → Nat → Nat)
    (fInv : Nat → Nat) (g' : Graph) (hg : (Graph.new N m d s).gen rng fInv = some g')
    (node layer : Nat) (hn : node < N) : (drgHalf g' node layer).length = max 5 m := by
  obtain ⟨hnd, hb, -, -, -, -, -⟩ := gen_spec N m d s rng fInv g' hg
  by_cases hpar : layer % 2 = 0
  · rw [drgHalf_even _ _ _ hpar, length_pad_parents,
      gen_bas_length N m d s rng fInv g' hg node hn, hb]
  · rw [drgHalf_odd _ _ _ (by omega), length_pad_parents, List.length_map, hnd,
      gen_bas_length N m d s rng fInv g' hg (N - node - 1) (by omega), hb]

theorem gen_expHalf_length (N m d : Nat) (s : List Nat) (rng : Nat → Nat → Nat)
    (fInv : Nat → Nat) (g' : Graph) (hg : (Graph.new N m d s).gen rng fInv = some g')
    (hinj : Function.Injective fInv) (node layer : Nat) (hn : node < N) :
    (expHalf g' node layer).length = d := by
  obtain ⟨-, -, he, -, -, -, -⟩ := gen_spec N m d s rng fInv g' hg
  by_cases hpar : layer % 2 = 0
  · rw [expHalf_even _ _ _ hpar, length_pad_parents, he]
    exact Nat.max_eq_right (gen_exp_nth_len N m d s rng fInv g' hg node hn)
  · rw [expHalf_odd _ _ _ (by omega), length_pad_parents, he]
    exact Nat.max_eq_right (gen_rev_nth_len_le N m d s rng fInv g' hg hinj node hn)

/-- Claim C1 is false as stated: on the concrete generated graph `gC`
(N = 4, m = 2, d = 1) the vector built by `Graph::parents` for node 0,
layer 0 has length 6, not m + d = 3 — `bucketsample_parents` always
stores 5 DRG slots, `pad_parents` never truncates, and the
`assert_eq!(ps.len(), self.degree())` fires (modelled as `none`). -/
theorem claim1_counterexample :
    (Graph.parentsVec gC 0 0).length = 6 ∧ gC.base_degree + gC.expansion_degree = 3 ∧
    Graph.parents gC 0 0 = none := by decide

/-- Claim C1 (amended): for every generated graph with an injective
Feistel map and every node < N and layer, the parent vector is the DRG
half followed by the expander half, the DRG half has length max(5, m),
the expander half has length exactly d, so the whole vector has length
max(5, m) + d; it equals m + d — and the assert in `Graph::parents`
passes — exactly when m ≥ 5 (the deployed base degree is 5). -/
theorem claim1_amended (N m d : Nat) (s : List Nat) (rng : Nat → Nat → Nat)
    (fInv : Nat → Nat) (g' : Graph) (hg : (Graph.new N m d s).gen rng fInv = some g')
    (hinj : Function.Injective fInv) (node layer : Nat) (hn : node < N) :
    Graph.parentsVec g' node layer = drgHalf g' node layer ++ expHalf g' node layer ∧
    (drgHalf g' node layer).length = max 5 m ∧
    (expHalf g' node layer).length = d ∧
    (Graph.parentsVec g' node layer).length = max 5 m + d ∧
    Graph.parents g' node layer =
      (if max 5 m + d = m + d then some (Graph.parentsVec g' node layer) else none) := by
  obtain ⟨-, hb, he, -, -, -, -⟩ := gen_spec N m d s rng fInv g' hg
  have h1 : (drgHalf g' node layer).length = max 5 m :=
    gen_drgHalf_length N m d s rng fInv g' hg node layer hn
  have h2 : (expHalf g' node layer).length = d :=
    gen_expHalf_length N m d s rng fInv g' hg hinj node layer hn
  have h3 : (Graph.parentsVec g' node layer).length = max 5 m + d := by
    rw [Graph.parentsVec, List.length_append, h1, h2]
  refine ⟨rfl, h1, h2, h3, ?_⟩
  unfold Graph.parents Graph.degree
  simp only [h3, hb, he]

theorem claim1_witness :
    Graph.parentsVec gW 0 1 = drgHalf gW 0 1 ++ expHalf gW 0 1 ∧
    (drgHalf gW 0 1).length = max 5 5 ∧
    (expHalf gW 0 1).length = 1 ∧
    (Graph.parentsVec gW 0 1).length = max 5 5 + 1 ∧
    Graph.parents gW 0 1 =
      (if max 5 5 + 1 = 5 + 1 then some (Graph.parentsVec gW 0 1) else none) :=
  claim1_amended 4 5 1 seedL rngZ fInvId gW (by decide) (fun _ _ hab => hab) 0 1
    (by decide)

/-- Claim C2 is false as stated: node 0 appears in its own parent
vector (all its slots are 0), so not every parent is strictly earlier
and a node can be its own parent. -/
theorem claim2_counterexample : (0 : Nat) ∈ Graph.parentsVec gC 0 0 := by decide

/-- Claim C2 (amended): on a generated graph (with m ≤ 5, as forced by
generation whenever N ≥ 3), on even layers every parent of every node
i ≥ 1 is strictly less than i, while node 0's parents are all 0 (node
0 is its own parent — harmless, since its value is read before it is
written); on odd layers every DRG-half parent p of node i with
i + 1 < N is strictly earlier in the mirrored processing order
(N−1−p < N−1−i), and every stored reverse-expander parent of i is
strictly later in physical index (i < p).  Hence sequential in-place
encoding never overwrites a value that a later node still reads. -/
theorem claim2_amended (N m d : Nat) (s : List Nat) (rng : Nat → Nat → Nat)
    (fInv : Nat → Nat) (g' : Graph) (hg : (Graph.new N m d s).gen rng fInv = some g')
    (hm : m ≤ 5) :
    (∀ layer i p, layer % 2 = 0 → 1 ≤ i → i < N →
      p ∈ Graph.parentsVec g' i layer → p < i) ∧
    (∀ layer p, layer % 2 = 0 → p ∈ Graph.parentsVec g' 0 layer → p = 0) ∧
    (∀ layer i p, layer % 2 = 1 → i + 1 < N →
      p ∈ drgHalf g' i layer → N - 1 - p < N - 1 - i) ∧
    (∀ i p, i < N → p ∈ nth g'.exp_reversed i [] → i < p) := by
  obtain ⟨hnd, hb, -, hbl, -, -, -⟩ := gen_spec N m d s rng fInv g' hg
  refine ⟨?_, ?_, ?_, ?_⟩
  · intro layer i p hpar h1 hiN hp
    rcases List.mem_append.mp hp with hdr | hex
    · rw [drgHalf_even _ _ _ hpar] at hdr
      rcases mem_pad_parents _ _ _ hdr with h3 | h3
      · rcases gen_bas_mem N m d s rng fInv g' hg i p hiN h3 with h4 | h4 <;> omega
      · omega
    · rw [expHalf_even _ _ _ hpar] at hex
      rcases mem_pad_parents _ _ _ hex with h3 | h3
      · exact gen_exp_mem N m d s rng fInv g' hg i p hiN h3
      · omega
  · intro layer p hpar hp
    rcases List.mem_append.mp hp with hdr | hex
    · rw [drgHalf_even _ _ _ hpar] at hdr
      rcases mem_pad_parents _ _ _ hdr with h3 | h3
      · by_cases hN0 : 0 < N
        · rcases gen_bas_mem N m d s rng fInv g' hg 0 p hN0 h3 with h4 | h4 <;> omega
        · rw [nth_default _ _ _ (by omega)] at h3
          simp at h3
      · exact h3
    · rw [expHalf_even _ _ _ hpar] at hex
      rcases mem_pad_parents _ _ _ hex with h3 | h3
      · by_cases hN0 : 0 < N
        · have := gen_exp_mem N m d s rng fInv g' hg 0 p hN0 h3
          omega
        · rw [nth_default _ _ _ (by rw [gen_exp_len N hg]; omega)] at h3
          simp at h3
      · exact h3
  · intro layer i p hpar hi1 hp
    rw [drgHalf_odd _ _ _ hpar, hnd] at hp
    have hr : N - i - 1 < N := by omega
    have hlen : ((nth g'.bas (N - i - 1) []).map fun x => N - x - 1).length = 5 := by
      rw [List.length_map, gen_bas_length N m d s rng fInv g' hg _ hr]
    rw [pad_parents_of_le _ _ (by rw [hlen]; omega)] at hp
    rcases List.mem_map.mp hp with ⟨e, he, hep⟩
    rcases gen_bas_mem N m d s rng fInv g' hg _ e hr he with h4 | h4 <;> omega
  · intro i p hiN hp
    exact (gen_rev_mem N m d s rng fInv g' hg i p hiN hp).1

theorem claim2_witness :
    (1 : Nat) < 2 ∧ (0 : Nat) = 0 ∧ 4 - 1 - 2 < 4 - 1 - 1 ∧ (0 : Nat) < 1 := by
  have h := claim2_amended 4 2 1 seedL rngZ fInv0 gD (by decide) (by decide)
  exact ⟨h.1 0 2 1 rfl (by decide) (by decide) (by decide),
    h.2.1 0 0 rfl (by decide),
    h.2.2.1 1 1 2 rfl (by decide) (by decide),
    h.2.2.2 0 1 (by decide) (by decide)⟩

/-- Claim C4: on an odd layer the DRG half of the parent vector of
node n is exactly `bas[N−1−n]` remapped entrywise by p ↦ N−1−p, in the
stored order (taken from the cached forward adjacency, not
recomputed). -/
theorem claim4_reflection (N m d : Nat) (s : List Nat) (rng : Nat → Nat → Nat)
    (fInv : Nat → Nat) (g' : Graph) (hg : (Graph.new N m d s).gen rng fInv = some g')
    (hN : 3 ≤ N) (node layer : Nat) (hn : node < N) (hodd : layer % 2 = 1) :
    drgHalf g' node layer = (nth g'.bas (N - 1 - node) []).map fun p => N - 1 - p := by
  have hm5 : m ≤ 5 := gen_m_le_five N m d s rng fInv g' hg hN
  obtain ⟨hnd, hb, -, -, -, -, -⟩ := gen_spec N m d s rng fInv g' hg
  rw [drgHalf_odd _ _ _ hodd, hnd, hb]
  have hr : N - node - 1 < N := by omega
  have hlen : ((nth g'.bas (N - node - 1) []).map fun x => N - x - 1).length = 5 := by
    rw [List.length_map, gen_bas_length N m d s rng fInv g' hg _ hr]
  rw [pad_parents_of_le _ _ (by rw [hlen]; omega)]
  have hidx : N - node - 1 = N - 1 - node := by omega
  have hfun : (fun x => N - x - 1) = fun p => N - 1 - p := funext fun x => by omega
  rw [hidx, hfun]

theorem claim4_witness :
    drgHalf gC 1 1 = (nth gC.bas (4 - 1 - 1) []).map fun p => 4 - 1 - p :=
  claim4_reflection 4 2 1 seedL rngZ fInvId gC (by decide) (by decide) 1 1 (by decide)
    (by decide)

/-- Claim C5: after generation every entry of `bas[i]` for i ≥ 2 is
strictly below i; the bucket-sampling loop body never hits the
`assert!(out <= node)` (it always produces a value, for any draws),
and whatever it produces is strictly below the node (a candidate equal
to the node having been replaced by node − 1). -/
theorem claim5_acyclic (N m d : Nat) (s : List Nat) (rng : Nat → Nat → Nat)
    (fInv : Nat → Nat) (g' : Graph) (hg : (Graph.new N m d s).gen rng fInv = some g') :
    (∀ i p, 2 ≤ i → i < N → p ∈ nth g'.bas i [] → p < i) ∧
    (∀ nd k rng1, 2 ≤ nd → k < m →
      (bucketStep (Graph.new N m d s) rng1 nd k).isSome = true) ∧
    (∀ nd k rng1 p, 1 ≤ nd → bucketStep (Graph.new N m d s) rng1 nd k = some p →
      p < nd) := by
  refine ⟨?_, ?_, ?_⟩
  · intro i p h2 hiN hp
    rcases gen_bas_mem N m d s rng fInv g' hg i p hiN hp with h | h <;> omega
  · intro nd k rng1 h2 hk
    exact bucketStep_isSome (Graph.new N m d s) rng1 nd k h2 hk
  · intro nd k rng1 p h1 hstep
    exact bucketStep_lt _ _ _ _ _ h1 hstep

theorem claim5_witness :
    (1 : Nat) < 2 ∧
    (bucketStep (Graph.new 4 2 1 seedL) (rngZ 2) 2 0).isSome = true ∧
    (1 : Nat) < 2 := by
  have h := claim5_acyclic 4 2 1 seedL rngZ fInvId gC (by decide)
  exact ⟨h.1 2 1 (by decide) (by decide) (by decide),
         h.2.1 2 0 (rngZ 2) (by decide) (by decide),
         h.2.2 2 0 (rngZ 2) 1 (by decide) (by decide)⟩

/-- Claim C9 is false as stated: with N = 4, m = 2 the padded DRG half
of node 0's parent vector is the full 5-slot zero vector
[0,0,0,0,0], not [0,0] — `pad_parents` never truncates the 5-slot
`bas` entry down to m. -/
theorem claim9_counterexample : drgHalf gC 0 0 ≠ [0, 0] := by decide

/-- Claim C9 (amended): for nodes 0 and 1 the stored DRG entry is the
all-zero 5-slot vector (in particular all m generated parents are 0);
in the N = 4, m = 2 scenario the padded DRG half of nodes 0 and 1 is
[0,0,0,0,0], whose first m entries are [0,0]. -/
theorem claim9_amended (N m d : Nat) (s : List Nat) (rng : Nat → Nat → Nat)
    (fInv : Nat → Nat) (g' : Graph) (hg : (Graph.new N m d s).gen rng fInv = some g')
    (hN : 2 ≤ N) :
    nth g'.bas 0 [] = List.replicate 5 0 ∧
    nth g'.bas 1 [] = List.replicate 5 0 ∧
    drgHalf gC 0 0 = List.replicate 5 0 ∧
    drgHalf gC 1 0 = List.replicate 5 0 ∧
    (drgHalf gC 0 0).take 2 = [0, 0] := by
  obtain ⟨-, -, -, -, -, -, hbas⟩ := gen_spec N m d s rng fInv g' hg
  have h0 := hbas 0 (by omega)
  have h1 := hbas 1 (by omega)
  rw [bucketsample_node01 _ _ _ (by omega)] at h0
  rw [bucketsample_node01 _ _ _ (by omega)] at h1
  exact ⟨(Option.some.inj h0).symm, (Option.some.inj h1).symm,
    by decide, by decide, by decide⟩

theorem claim9_witness :
    nth gC.bas 0 [] = List.replicate 5 0 ∧
    nth gC.bas 1 [] = List.replicate 5 0 ∧
    drgHalf gC 0 0 = List.replicate 5 0 ∧
    drgHalf gC 1 0 = List.replicate 5 0 ∧
    (drgHalf gC 0 0).take 2 = [0, 0] :=
  claim9_amended 4 2 1 seedL rngZ fInvId gC (by decide) (by decide)

/-- Claim C10 is false as stated: for base_degree 6 > 5 and node 2 the
`parents[0..m]` slice sort panics (modelled as `none`), so not every
graph/node yields a 5-entry vector. -/
theorem claim10_counterexample :
    bucketsample_parents (Graph.new 4 6 1 seedL) (rngZ 2) 2 = none := by decide

/-- Claim C10 (amended): for every graph with m ≤ 5 and every node,
`bucketsample_parents` returns a vector of length exactly 5 with the
slots at positions m..5 equal to 0; for nodes 0 and 1 this holds for
ANY m — the result is always `some [0,0,0,0,0]`, the all-zero 5-slot
vector; for m > 5 and any node ≥ 2 the
`parents[0..m].sort_unstable()` slice panics instead. -/
theorem claim10_fixed_width (g : Graph) (rng : Nat → Nat) (node : Nat)
    (hm : g.base_degree ≤ 5) :
    (bucketsample_parents g rng node).isSome = true ∧
    (∀ v, bucketsample_parents g rng node = some v →
      v.length = 5 ∧ ∀ t, g.base_degree ≤ t → t < 5 → nth v t 1 = 0) ∧
    (∀ g2 rng2 node2, 5 < g2.base_degree → 2 ≤ node2 →
      bucketsample_parents g2 rng2 node2 = none) ∧
    (∀ g3 rng3 node3, node3 ≤ 1 →
      bucketsample_parents g3 rng3 node3 = some (List.replicate 5 0)) := by
  refine ⟨bucketsample_isSome g rng node hm, ?_, ?_, ?_⟩
  · intro v hv
    exact ⟨bucketsample_length g rng node v hv,
      fun t ht ht5 => bucketsample_pad g rng node v hv t ht ht5⟩
  · intro g2 rng2 node2 h5 h2
    exact bucketsample_fails g2 rng2 node2 h5 h2
  · intro g3 rng3 node3 h01
    exact bucketsample_node01 g3 rng3 node3 h01

theorem claim10_witness :
    (bucketsample_parents (Graph.new 4 2 1 seedL) (rngZ 2) 2).isSome = true ∧
    ([1, 1, 0, 0, 0] : List Nat).length = 5 ∧
    nth ([1, 1, 0, 0, 0] : List Nat) 3 1 = 0 ∧
    bucketsample_parents (Graph.new 4 6 1 seedL) (rngZ 3) 2 = none ∧
    bucketsample_parents (Graph.new 4 7 1 seedL) (rngZ 0) 0 =
      some (List.replicate 5 0) := by
  have h := claim10_fixed_width (Graph.new 4 2 1 seedL) (rngZ 2) 2 (by decide)
  exact ⟨h.1, (h.2.1 [1, 1, 0, 0, 0] (by decide)).1,
    (h.2.1 [1, 1, 0, 0, 0] (by decide)).2 3 (by decide) (by decide),
    h.2.2.1 (Graph.new 4 6 1 seedL) (rngZ 3) 2 (by decide) (by decide),
    h.2.2.2 (Graph.new 4 7 1 seedL) (rngZ 0) 0 (by decide)⟩

/-- Claim C6: after `gen_parents_cache`, n1 occurs in
`exp_reversed[n2]` exactly as often as n2 occurs in `exp[n1]` (so
membership agrees too), and the total edge counts of the two tables
are equal. -/
theorem claim6_reverse_consistency (N m d : Nat) (s : List Nat) (rng : Nat → Nat → Nat)
    (fInv : Nat → Nat) (g' : Graph) (hg : (Graph.new N m d s).gen rng fInv = some g')
    (n1 n2 : Nat) (h1 : n1 < N) (h2 : n2 < N) :
    (nth g'.exp_reversed n2 []).count n1 = (nth g'.exp n1 []).count n2 ∧
    (n1 ∈ nth g'.exp_reversed n2 [] ↔ n2 ∈ nth g'.exp n1 []) ∧
    totalLen g'.exp_reversed = totalLen g'.exp := by
  refine ⟨gen_rev_count N m d s rng fInv g' hg n1 n2 h1 h2, ?_,
    gen_rev_total N m d s rng fInv g' hg⟩
  rw [← List.count_pos_iff, ← List.count_pos_iff,
    gen_rev_count N m d s rng fInv g' hg n1 n2 h1 h2]

theorem claim6_witness :
    (nth gD.exp_reversed 0 []).count 1 = (nth gD.exp 1 []).count 0 ∧
    ((1 : Nat) ∈ nth gD.exp_reversed 0 [] ↔ (0 : Nat) ∈ nth gD.exp 1 []) ∧
    totalLen gD.exp_reversed = totalLen gD.exp :=
  claim6_reverse_consistency 4 2 1 seedL rngZ fInv0 gD (by decide) 1 0 (by decide)
    (by decide)

/-- Claim C7: graph generation is deterministic — running it on equal
parameters (N, m, d, seed), with the seed-derived random stream and
the Feistel inverse being functions of those parameters, yields
identical `bas`, `exp` and `exp_reversed` tables. -/
theorem claim7_deterministic (N m d : Nat) (s : List Nat) (rng : Nat → Nat → Nat)
    (fInv : Nat → Nat) (N' m' d' : Nat) (s' : List Nat)
    (hN : N = N') (hm : m = m') (hd : d = d') (hs : s = s') :
    (Graph.new N m d s).gen rng fInv = (Graph.new N' m' d' s').gen rng fInv ∧
    ((Graph.new N m d s).gen rng fInv).map Graph.bas =
      ((Graph.new N' m' d' s').gen rng fInv).map Graph.bas ∧
    ((Graph.new N m d s).gen rng fInv).map Graph.exp =
      ((Graph.new N' m' d' s').gen rng fInv).map Graph.exp ∧
    ((Graph.new N m d s).gen rng fInv).map Graph.exp_reversed =
      ((Graph.new N' m' d' s').gen rng fInv).map Graph.exp_reversed := by
  subst hN hm hd hs
  exact ⟨rfl, rfl, rfl, rfl⟩

theorem claim7_witness :
    (Graph.new 4 2 1 seedL).gen rngZ fInvId = (Graph.new 4 2 1 seedL).gen rngZ fInvId ∧
    ((Graph.new 4 2 1 seedL).gen rngZ fInvId).map Graph.bas =
      ((Graph.new 4 2 1 seedL).gen rngZ fInvId).map Graph.bas ∧
    ((Graph.new 4 2 1 seedL).gen rngZ fInvId).map Graph.exp =
      ((Graph.new 4 2 1 seedL).gen rngZ fInvId).map Graph.exp ∧
    ((Graph.new 4 2 1 seedL).gen rngZ fInvId).map Graph.exp_reversed =
      ((Graph.new 4 2 1 seedL).gen rngZ fInvId).map Graph.exp_reversed :=
  claim7_deterministic 4 2 1 seedL rngZ fInvId 4 2 1 seedL rfl rfl rfl rfl

/-- Claim C3 is wrong about the code: `r2` performs exactly one
encoding pass — `replicate_layer!(g, replica_id, 0, data)`, even
parity — and the other nine layer invocations are commented out, so it
does not run the 10-layer alternating schedule.  On the one-node graph
`gOne` with a constant key digest the single pass gives a different
result than the spec's 10-layer schedule. -/
theorem claim3_single_layer :
    (∀ (g : Graph) (hash : List Fr → Fr) (data : List Fr),
      r2 g hash data = replicate_layer g hash 0 data) ∧
    r2 gOne hOne dOne ≠ specTenLayerSchedule gOne hOne dOne := by
  refine ⟨fun g hash data => rfl, ?_⟩
  decide

theorem fr_add_self_eq_zero (k : Fr) (h : k + k = 0) : k = 0 := by
  have hval : (k + k).val = 0 := by rw [h]; exact ZMod.val_zero
  rw [ZMod.val_add] at hval
  have hlt : k.val < blsR := ZMod.val_lt k
  have hdvd : blsR ∣ k.val + k.val := Nat.dvd_of_mod_eq_zero hval
  have hodd : blsR % 2 = 1 := by decide
  rcases hdvd with ⟨c, hc⟩
  have hzero : k.val = 0 := by
    match c with
    | 0 => omega
    | 1 =>
      have hpar : (k.val + k.val) % 2 = 0 := by omega
      rw [hc, Nat.mul_one] at hpar
      omega
    | c' + 2 =>
      have hmul : blsR * 2 ≤ blsR * (c' + 2) :=
        Nat.mul_le_mul_left blsR (by omega)
      omega
  exact (ZMod.val_eq_zero k).mp hzero

/-- Claim C8 is false as stated: with key k = 0 encoding is the
identity, so re-encoding an encoded value yields the original value
again — "never idempotent" fails for the zero key. -/
theorem claim8_counterexample :
    encodeVal (encodeVal (0 : Fr) 0) 0 = 0 ∧
    encodeVal (encodeVal (0 : Fr) 0) 0 = encodeVal (0 : Fr) 0 := by
  constructor <;> simp [encodeVal]

/-- Claim C8 (amended): subtracting the key from the encoded value
always recovers the original (field addition is invertible); and for
every nonzero key, re-encoding an already-encoded value changes it —
it differs both from the original value and from the singly-encoded
value.  Only the zero key makes encoding idempotent. -/
theorem claim8_invertible (v k : Fr) :
    encodeVal v k - k = v ∧
    (k ≠ 0 → encodeVal (encodeVal v k) k ≠ v ∧
      encodeVal (encodeVal v k) k ≠ encodeVal v k) := by
  refine ⟨add_sub_cancel_right v k, fun hk => ⟨?_, ?_⟩⟩
  · intro h
    apply hk
    apply fr_add_self_eq_zero
    rw [encodeVal, encodeVal, add_assoc] at h
    exact add_right_eq_self.mp h
  · intro h
    apply hk
    rw [encodeVal, encodeVal] at h
    exact add_right_eq_self.mp h

theorem claim8_witness :
    encodeVal (0 : Fr) 1 - 1 = 0 ∧
    (encodeVal (encodeVal (0 : Fr) 1) 1 ≠ 0 ∧
     encodeVal (encodeVal (0 : Fr) 1) 1 ≠ encodeVal (0 : Fr) 1) :=
  ⟨(claim8_invertible 0 1).1, (claim8_invertible 0 1).2 one_ne_zero⟩

end R2
